import Mathlib

/-!
Shallow embedding of `src/libear/ear.c` (the Bear interception shim).

Conventions of the embedding:
* C byte strings (`char const *`) are `List Nat` (one `Nat` per byte, the
  terminating 0 is implicit and never stored in the list).
* Wide-character strings (`wchar_t` sequences produced by `mbstowcs`) are
  `List Nat` of Unicode code points.
* Emitted text (report file contents, escape buffers) is `List Char`.
* Null-terminated string arrays (`char const **`) are `Option (List α)`:
  `none` is the NULL pointer, `some l` a real array holding `l` before its
  null sentinel.
* The build is the Linux one (`APPLE` undefined): `ENV_SIZE = 2` and the
  captured variables are `INTERCEPT_BUILD_TARGET_DIR` and `LD_PRELOAD`.
-/

namespace Ear

/-- Lowercase hexadecimal digit character, as printf's `%x` renders one nibble. -/
def hexDigitChar (n : Nat) : Char :=
  if n < 10 then Char.ofNat (48 + n) else Char.ofNat (87 + n)

/-- Fuel-driven helper for `hexRep` (the fuel only serves termination; any fuel
above `n` gives the same digits). -/
def hexRepAux : Nat → Nat → List Char
  | 0, _ => []
  | fuel + 1, n =>
    if n < 16 then [hexDigitChar n]
    else hexRepAux fuel (n / 16) ++ [hexDigitChar (n % 16)]

/-- Minimal-length lowercase hexadecimal rendering of `n`, most significant digit
first, as printf's `%x` produces. -/
def hexRep (n : Nat) : List Char := hexRepAux (n + 1) n

/-- Zero-padding to at least four characters: `%04x` applied to the digits of `%x`. -/
def pad4 (l : List Char) : List Char :=
  List.replicate (4 - l.length) '0' ++ l

/-- Text the `switch` in `encode_json_string` formats for one wide character:
the seven two-character escapes, a `\uXXXX`-style escape (`snprintf` format
`"\\u%04x"`, so more than four digits when the code point needs them) for
characters below `L' '` or above `127`, and the character itself otherwise. -/
def escFull (c : Nat) : List Char :=
  if c = 8 then ['\\', 'b']
  else if c = 12 then ['\\', 'f']
  else if c = 10 then ['\\', 'n']
  else if c = 13 then ['\\', 'r']
  else if c = 9 then ['\\', 't']
  else if c = 34 then ['\\', '"']
  else if c = 92 then ['\\', '\\']
  else if c < 32 ∨ 127 < c then '\\' :: 'u' :: pad4 (hexRep c)
  else [Char.ofNat c]

/-- Amount `dst_it` advances for one wide character: `snprintf`'s return value is
the untruncated formatted length, and the pass-through branch advances by one. -/
def encAdv (c : Nat) : Nat := (escFull c).length

/-- Total `dst_it` advance over a wide string. -/
def encTotalAdv : List Nat → Nat
  | [] => 0
  | c :: cs => encAdv c + encTotalAdv cs

/-- Bytes one iteration of the encoding loop actually stores, starting at `dst_it`:
the escape branches call `snprintf(dst_it, 3, ..)` (two characters plus a
terminating 0), the `\uXXXX` branch calls `snprintf(dst_it, 7, ..)` (at most six
characters plus a terminating 0, truncating longer escapes), and the default
branch stores the single character directly with no terminator. -/
def escMaterialized (c : Nat) : List Char :=
  if c = 8 ∨ c = 12 ∨ c = 10 ∨ c = 13 ∨ c = 9 ∨ c = 34 ∨ c = 92 then
    escFull c ++ [Char.ofNat 0]
  else if c < 32 ∨ 127 < c then
    (escFull c).take 6 ++ [Char.ofNat 0]
  else [Char.ofNat c]

/-- The store trace of `encode_json_string`'s main loop from write offset `i` with
buffer size `n`: every `(offset, byte)` pair stored, and whether the function
returns success (0) rather than `-1`.  Before each character the loop checks
`dst_it >= dst_end`; after the loop the terminating 0 is stored only when
`dst_it < dst_end`. -/
def encWrites : List Nat → Nat → Nat → List (Nat × Char) × Bool
  | [], i, n => if i < n then ([(i, Char.ofNat 0)], true) else ([], false)
  | c :: cs, i, n =>
    if n ≤ i then ([], false)
    else
      let p := encWrites cs (i + encAdv c) n
      ((List.enum (escMaterialized c)).map (fun q => (i + q.1, q.2)) ++ p.1, p.2)

/-- The C string later read back from the filled buffer by `dprintf("%s", ..)`:
bytes from offset 0 up to the first stored 0.  Chunks are laid out at
consecutive `encAdv` offsets and each chunk's trailing 0 (where present) is
overwritten by the next chunk's first byte, except when the `\uXXXX` escape was
truncated (`snprintf` still returns the untruncated length, so `dst_it` skips
past the stored terminator and the read-back stops there). -/
def encChunks : List Nat → List Char
  | [] => []
  | c :: cs =>
    if 7 ≤ (escFull c).length then (escFull c).take 6
    else escFull c ++ encChunks cs

/-- Strict UTF-8 decoding of a byte string into code points, modelling `mbstowcs`
under the UTF-8 locale installed by `mt_safe_on_load` (`none` models the
`(size_t)-1` failure return on malformed input). -/
def utf8Decode : List Nat → Option (List Nat)
  | [] => some []
  | b :: rest =>
    if b < 0x80 then (utf8Decode rest).map (fun l => b :: l)
    else if b < 0xC2 then none
    else if b < 0xE0 then
      match rest with
      | b1 :: r =>
        if 0x80 ≤ b1 ∧ b1 < 0xC0 then
          (utf8Decode r).map (fun l => ((b - 0xC0) * 64 + (b1 - 0x80)) :: l)
        else none
      | [] => none
    else if b < 0xF0 then
      match rest with
      | b1 :: b2 :: r =>
        if 0x80 ≤ b1 ∧ b1 < 0xC0 ∧ 0x80 ≤ b2 ∧ b2 < 0xC0 then
          let c := (b - 0xE0) * 4096 + (b1 - 0x80) * 64 + (b2 - 0x80)
          if 0x800 ≤ c ∧ ¬(0xD800 ≤ c ∧ c ≤ 0xDFFF) then
            (utf8Decode r).map (fun l => c :: l)
          else none
        else none
      | _ => none
    else if b < 0xF5 then
      match rest with
      | b1 :: b2 :: b3 :: r =>
        if 0x80 ≤ b1 ∧ b1 < 0xC0 ∧ 0x80 ≤ b2 ∧ b2 < 0xC0 ∧ 0x80 ≤ b3 ∧ b3 < 0xC0 then
          let c := (b - 0xF0) * 262144 + (b1 - 0x80) * 4096 + (b2 - 0x80) * 64 + (b3 - 0x80)
          if 0x10000 ≤ c ∧ c ≤ 0x10FFFF then
            (utf8Decode r).map (fun l => c :: l)
          else none
        else none
      | _ => none
    else none

/-- Model of `encode_json_string(src, dst, dst_size)`: decode `src` with
`mbstowcs` (failure gives `-1`), run the escaping loop, and on success yield the
C string the buffer then holds.  `none` is the `-1` return. -/
def encode_json_string (src : List Nat) (dstSize : Nat) : Option (List Char) :=
  match utf8Decode src with
  | none => none
  | some ws => if (encWrites ws 0 dstSize).2 then some (encChunks ws) else none

/-- Decimal rendering of the process id, as `dprintf`'s `%d` prints the
(non-negative) `pid_t`. -/
def pidDigits (pid : Nat) : List Char := Nat.toDigits 10 pid

/-- Opening text of the report: `dprintf(fd, "{ \"pid\": %d, \"cmd\": [", pid)`. -/
def jsonHeader (pid : Nat) : List Char :=
  "\x7b \"pid\": ".toList ++ pidDigits pid ++ ", \"cmd\": [".toList

/-- The `cmd` loop of `write_json_report`: for each argument, encode it into a
stack buffer of `6 * strlen + 1` bytes and print `sep " \"" buffer "\""`, where
`sep` is empty for the first entry (`it == cmd`) and `","` afterwards.  `none`
models the `-1` return when an encoding fails. -/
def write_json_cmd_loop : List (List Nat) → Bool → Option (List Char)
  | [], _ => some []
  | s :: rest, isFirst =>
    (encode_json_string s (6 * s.length + 1)).bind fun enc =>
      (write_json_cmd_loop rest false).map fun tail =>
        (if isFirst then [] else [',']) ++ ' ' :: '"' :: (enc ++ '"' :: tail)

/-- Model of `write_json_report(fd, cmd, cwd, pid)`: the full byte stream written
to the report file, or `none` for the `-1` return.  A NULL `cmd` pointer makes
the loop guard `(it) && (*it)` skip the loop entirely.  The `cwd` buffer is
`6 * strlen(cwd)` bytes — with no `+ 1`. -/
def write_json_report (cmd : Option (List (List Nat))) (cwd : List Nat) (pid : Nat) :
    Option (List Char) :=
  (write_json_cmd_loop (match cmd with | none => [] | some l => l) true).bind fun entries =>
    (encode_json_string cwd (6 * cwd.length)).map fun cwdEnc =>
      jsonHeader pid ++ entries ++ "], \"cwd\": \"".toList ++ cwdEnc ++ "\" \x7d".toList

/-- Value of a hexadecimal digit character, for reading back `\uXXXX` escapes. -/
def hexVal (ch : Char) : Option Nat :=
  if 48 ≤ ch.toNat ∧ ch.toNat ≤ 57 then some (ch.toNat - 48)
  else if 97 ≤ ch.toNat ∧ ch.toNat ≤ 102 then some (ch.toNat - 87)
  else if 65 ≤ ch.toNat ∧ ch.toNat ≤ 70 then some (ch.toNat - 55)
  else none

/-- Standard JSON string-literal decoding of the escapes the encoder produces:
the seven two-character escapes, `\u` followed by exactly four hexadecimal
digits, and plain characters standing for themselves.  An unescaped quote would
terminate the literal and a bare backslash is malformed, so both yield `none`. -/
def jsonStringDecode : List Char → Option (List Nat)
  | [] => some []
  | ch :: rest =>
    if ch = '"' then none
    else if ch = '\\' then
      match rest with
      | [] => none
      | e :: rest2 =>
        if e = 'b' then (jsonStringDecode rest2).map (fun l => 8 :: l)
        else if e = 'f' then (jsonStringDecode rest2).map (fun l => 12 :: l)
        else if e = 'n' then (jsonStringDecode rest2).map (fun l => 10 :: l)
        else if e = 'r' then (jsonStringDecode rest2).map (fun l => 13 :: l)
        else if e = 't' then (jsonStringDecode rest2).map (fun l => 9 :: l)
        else if e = '"' then (jsonStringDecode rest2).map (fun l => 34 :: l)
        else if e = '\\' then (jsonStringDecode rest2).map (fun l => 92 :: l)
        else if e = 'u' then
          match rest2 with
          | h1 :: h2 :: h3 :: h4 :: rest3 =>
            match hexVal h1, hexVal h2, hexVal h3, hexVal h4 with
            | some x1, some x2, some x3, some x4 =>
              (jsonStringDecode rest3).map (fun l => (4096 * x1 + 256 * x2 + 16 * x3 + x4) :: l)
            | _, _, _, _ => none
          | _ => none
        else none
    else (jsonStringDecode rest).map (fun l => ch.toNat :: l)

/-- Model of `string_array_length`: the loop `for (it = in; (it) && (*it); ++it)`
counts entries, treating a NULL array as empty. -/
def string_array_length {α : Type} (arr : Option (List α)) : Nat :=
  match arr with
  | none => 0
  | some l => l.length

/-- Model of `string_array_copy`: allocates `length + 1` slots, deep-copies each
entry (the loop guard skips a NULL input) and null-terminates.  The result is
always a real (non-NULL) array, hence a plain `List`. -/
def string_array_copy {α : Type} (arr : Option (List α)) : List α :=
  match arr with
  | none => []
  | some l => l

/-- Model of `string_array_release`: the entries freed by the element loop (the
backing pointer is freed afterwards in either case; `free(NULL)` is a no-op). -/
def string_array_release {α : Type} (arr : Option (List α)) : List α :=
  match arr with
  | none => []
  | some l => l

/-- The scan condition of `string_array_single_update`:
`0 == strncmp(*it, key, key_length) && strlen(*it) > key_length && '=' == (*it)[key_length]`. -/
def envEntryMatches (key entry : List Char) : Bool :=
  key.isPrefixOf entry && decide (key.length < entry.length)
    && ((entry.drop key.length).headD ' ' == '=')

/-- The freshly formatted `snprintf(env, env_length, "%s=%s", key, value)` entry. -/
def mkEnvEntry (key value : List Char) : List Char := key ++ '=' :: value

/-- Model of `string_array_single_update`: scan for the first entry whose key
component matches `key` exactly; replace that slot in place if found, else
append a new entry (and re-terminate with the null sentinel). -/
def string_array_single_update (envs : List (List Char)) (key value : List Char) :
    List (List Char) :=
  match envs with
  | [] => [mkEnvEntry key value]
  | e :: rest =>
    if envEntryMatches key e then mkEnvEntry key value :: rest
    else e :: string_array_single_update rest key value

/-- The two captured variable names on Linux (`ENV_SIZE = 2`):
`ENV_OUTPUT` and `ENV_PRELOAD`. -/
def envOutputName : List Char := "INTERCEPT_BUILD_TARGET_DIR".toList

/-- The dynamic-loader preload variable name. -/
def envPreloadName : List Char := "LD_PRELOAD".toList

/-- The `env_names` table, in slot order. -/
def env_names : List (List Char) := [envOutputName, envPreloadName]

/-- The (name, value) pairs the `string_array_partial_update` loop actually
visits: `for (it = 0; it < ENV_SIZE && (*env)[it]; ++it)` walks slots in order
and stops at the first absent slot. -/
def capturedPrefix : List (Option (List Char)) → List (List Char) →
    List (List Char × List Char)
  | some v :: es, n :: ns => (n, v) :: capturedPrefix es ns
  | _, _ => []

/-- Every captured (name, value) pair whose slot is present, absent slots merely
skipped.  This follows the spec's words ("for each captured (key, value) pair,
in the captured list's own order") for comparison with `capturedPrefix`. -/
def specCapturedPairs : List (Option (List Char)) → List (List Char) →
    List (List Char × List Char)
  | some v :: es, n :: ns => (n, v) :: specCapturedPairs es ns
  | none :: es, _ :: ns => specCapturedPairs es ns
  | _, _ => []

/-- Model of `string_array_partial_update(envp, env)`: copy the input vector,
then apply `string_array_single_update` for each visited captured pair. -/
def string_array_partial_update (envp : Option (List (List Char)))
    (env : List (Option (List Char))) : List (List Char) :=
  (capturedPrefix env env_names).foldl
    (fun acc kv => string_array_single_update acc kv.1 kv.2)
    (string_array_copy envp)

/-- Process-wide interception state: the captured `initial_env` slots and the
`initialized` ("armed") flag. -/
structure ShimState where
  initial_env : List (Option (List Char))
  initialized : Bool
  deriving DecidableEq, Repr

/-- Model of `capture_env_t`: store each `getenv`/`strdup` result — present or
not — into its slot ("don't roll back"), and accumulate `status &= (env_copy) ? 1 : 0`.
The input list holds the per-slot capture results. -/
def capture_env_t (getenvs : List (Option (List Char))) :
    List (Option (List Char)) × Bool :=
  (getenvs, getenvs.foldl (fun st v => st && v.isSome) true)

/-- Model of `release_env_t`: free every slot and set it back to 0. -/
def release_env_t (env : List (Option (List Char))) : List (Option (List Char)) :=
  env.map (fun _ => none)

/-- Model of `on_load` / `mt_safe_on_load` (locale creation assumed to succeed):
capture the environment into `initial_env`; `initialized` becomes 1 only when the
whole capture succeeded. -/
def on_load (getenvs : List (Option (List Char))) : ShimState :=
  { initial_env := (capture_env_t getenvs).1
  , initialized := (capture_env_t getenvs).2 }

/-- Model of `on_unload`: `mt_safe_on_unload` (which releases `initial_env`) runs
only when `initialized` is set; `initialized` is cleared either way. -/
def on_unload (s : ShimState) : ShimState :=
  if s.initialized then
    { initial_env := release_env_t s.initial_env, initialized := false }
  else
    { s with initialized := false }

/-- Model of `report_call(argv)` at working directory `cwd` in process `pid`:
`none` means the guard `if (!initialized) return;` fired and no report file was
created; `some r` means one report file was created whose body is `r`
(`r = none` models the fatal `write_json_report` failure path). -/
def report_call (s : ShimState) (argv : Option (List (List Nat)))
    (cwd : List Nat) (pid : Nat) : Option (Option (List Char)) :=
  if s.initialized then some (write_json_report argv cwd pid) else none

/-- Shape shared by every hijacked entry point: report the call, then invoke the
genuine implementation (`real`, abstract over its result type) with the
environment produced by `string_array_partial_update(envp, &initial_env)`.
The pair is (report file if any, result of the real call). -/
def intercepted_call {ρ : Type} (real : Option (List (List Nat)) → List (List Char) → ρ)
    (s : ShimState) (argv : Option (List (List Nat))) (envp : Option (List (List Char)))
    (cwd : List Nat) (pid : Nat) : Option (Option (List Char)) × ρ :=
  (report_call s argv cwd pid, real argv (string_array_partial_update envp s.initial_env))

/-- Comma-separated quoted `cmd` entries as the spec words them ("each argument
is emitted as an encoded JSON string, comma-separated, preserving argv order"),
for stating the report shape. -/
def specCmdBody : List (List Char) → Bool → List Char
  | [], _ => []
  | e :: rest, isFirst =>
    (if isFirst then [] else [',']) ++ ' ' :: '"' :: e ++ '"' :: specCmdBody rest false

/-- The full report body as the spec describes it: exactly the keys `pid`, `cmd`,
`cwd` in this order, nothing after the closing brace. -/
def specReportShape (pid : Nat) (encs : List (List Char)) (cwdEnc : List Char) :
    List Char :=
  jsonHeader pid ++ specCmdBody encs true ++ "], \"cwd\": \"".toList
    ++ cwdEnc ++ "\" \x7d".toList

/-! ### Helper lemmas about hexadecimal formatting -/

theorem hexRepAux_congr :
    ∀ f1 f2 n : Nat, n < f1 → n < f2 → hexRepAux f1 n = hexRepAux f2 n := by
  intro f1
  induction f1 with
  | zero => intro f2 n h1 _; omega
  | succ f ih =>
    intro f2 n h1 h2
    match f2, h2 with
    | g + 1, _ =>
      show (if n < 16 then [hexDigitChar n] else hexRepAux f (n / 16) ++ [hexDigitChar (n % 16)])
        = (if n < 16 then [hexDigitChar n] else hexRepAux g (n / 16) ++ [hexDigitChar (n % 16)])
      by_cases h16 : n < 16
      · simp [h16]
      · have hd : n / 16 < n := Nat.div_lt_self (by omega) (by omega)
        simp only [h16, if_false]
        rw [ih g (n / 16) (by omega) (by omega)]

theorem hexRep_eq (n : Nat) :
    hexRep n = if n < 16 then [hexDigitChar n]
               else hexRep (n / 16) ++ [hexDigitChar (n % 16)] := by
  show (if n < 16 then [hexDigitChar n] else hexRepAux n (n / 16) ++ [hexDigitChar (n % 16)]) = _
  by_cases h16 : n < 16
  · simp [h16]
  · have hd : n / 16 < n := Nat.div_lt_self (by omega) (by omega)
    simp only [h16, if_false]
    rw [hexRepAux_congr n (n / 16 + 1) (n / 16) (by omega) (by omega)]
    rfl

theorem hexRep_lt16 {n : Nat} (h : n < 16) : hexRep n = [hexDigitChar n] := by
  rw [hexRep_eq, if_pos h]

theorem hexRep_ge16 {n : Nat} (h : 16 ≤ n) :
    hexRep n = hexRep (n / 16) ++ [hexDigitChar (n % 16)] := by
  rw [hexRep_eq, if_neg (by omega)]

/-- The four digits `%04x` produces for a code point below `0x10000`. -/
theorem pad4_hexRep {c : Nat} (h : c < 65536) :
    pad4 (hexRep c) =
      [hexDigitChar (c / 4096), hexDigitChar (c / 256 % 16),
       hexDigitChar (c / 16 % 16), hexDigitChar (c % 16)] := by
  by_cases h1 : c < 16
  · rw [hexRep_lt16 h1]
    have e1 : c / 4096 = 0 := by omega
    have e2 : c / 256 % 16 = 0 := by omega
    have e3 : c / 16 % 16 = 0 := by omega
    have e4 : c % 16 = c := by omega
    rw [e1, e2, e3, e4]
    rfl
  · by_cases h2 : c < 256
    · rw [hexRep_ge16 (by omega), hexRep_lt16 (by omega)]
      have e1 : c / 4096 = 0 := by omega
      have e2 : c / 256 % 16 = 0 := by omega
      have e3 : c / 16 % 16 = c / 16 := by omega
      rw [e1, e2, e3]
      rfl
    · by_cases h3 : c < 4096
      · rw [hexRep_ge16 (by omega), hexRep_ge16 (by omega),
            Nat.div_div_eq_div_mul, hexRep_lt16 (by omega)]
        have e1 : c / 4096 = 0 := by omega
        have e2 : c / (16 * 16) = c / 256 := by norm_num
        have e3 : c / 256 % 16 = c / 256 := by omega
        rw [e1, e2, e3]
        rfl
      · rw [hexRep_ge16 (by omega), hexRep_ge16 (by omega),
            Nat.div_div_eq_div_mul, hexRep_ge16 (by omega),
            Nat.div_div_eq_div_mul, hexRep_lt16 (by omega)]
        have e2 : c / (16 * 16) = c / 256 := by norm_num
        have e2b : c / (16 * 16 * 16) = c / 4096 := by norm_num
        have e4 : c / 4096 % 16 = c / 4096 := by omega
        rw [e2, e2b]
        simp [pad4]

theorem hexVal_hexDigitChar : ∀ m : Nat, m < 16 → hexVal (hexDigitChar m) = some m := by
  decide

/-- Digit-count bound: a code point below `0x10000` has at most four hex digits. -/
theorem hexRep_length_le4 {c : Nat} (h : c < 65536) : (hexRep c).length ≤ 4 := by
  by_cases h1 : c < 16
  · rw [hexRep_lt16 h1]; simp
  · by_cases h2 : c < 256
    · rw [hexRep_ge16 (by omega), hexRep_lt16 (by omega)]; simp
    · by_cases h3 : c < 4096
      · rw [hexRep_ge16 (by omega), hexRep_ge16 (by omega), Nat.div_div_eq_div_mul,
            hexRep_lt16 (by omega)]
        simp
      · rw [hexRep_ge16 (by omega), hexRep_ge16 (by omega), Nat.div_div_eq_div_mul,
            hexRep_ge16 (by omega), Nat.div_div_eq_div_mul, hexRep_lt16 (by omega)]
        simp

theorem pad4_length (l : List Char) : (pad4 l).length = max 4 l.length := by
  simp [pad4]
  omega

/-! ### Helper lemmas about the escape of a single character -/

theorem escFull_passthrough {c : Nat} (h1 : 32 ≤ c) (h2 : c ≤ 127)
    (h3 : c ≠ 34) (h4 : c ≠ 92) : escFull c = [Char.ofNat c] := by
  unfold escFull
  rw [if_neg (by omega), if_neg (by omega), if_neg (by omega), if_neg (by omega),
      if_neg (by omega), if_neg h3, if_neg h4, if_neg (by omega)]

theorem escFull_uescape {c : Nat} (h : c < 32 ∨ 127 < c)
    (n1 : c ≠ 8) (n2 : c ≠ 12) (n3 : c ≠ 10) (n4 : c ≠ 13) (n5 : c ≠ 9) :
    escFull c = '\\' :: 'u' :: pad4 (hexRep c) := by
  unfold escFull
  rw [if_neg n1, if_neg n2, if_neg n3, if_neg n4, if_neg n5,
      if_neg (by omega), if_neg (by omega), if_pos h]

theorem escFull_length_le6 {c : Nat} (hc : c < 65536) : (escFull c).length ≤ 6 := by
  unfold escFull
  split_ifs with h1 h2 h3 h4 h5 h6 h7 h8
  · decide
  · decide
  · decide
  · decide
  · decide
  · decide
  · decide
  · simp only [List.length_cons, pad4_length]
    have := hexRep_length_le4 hc
    omega
  · norm_num

/-! ### Helper lemmas about JSON string decoding -/

theorem jsonStringDecode_plain {ch : Char} (h1 : ch ≠ '"') (h2 : ch ≠ '\\')
    (t : List Char) :
    jsonStringDecode (ch :: t) = (jsonStringDecode t).map (fun l => ch.toNat :: l) := by
  rw [jsonStringDecode.eq_def]
  simp [h1, h2]

theorem jsonStringDecode_esc_b (t : List Char) :
    jsonStringDecode ('\\' :: 'b' :: t) = (jsonStringDecode t).map (fun l => 8 :: l) := by
  rw [jsonStringDecode.eq_def]; simp +decide

theorem jsonStringDecode_esc_f (t : List Char) :
    jsonStringDecode ('\\' :: 'f' :: t) = (jsonStringDecode t).map (fun l => 12 :: l) := by
  rw [jsonStringDecode.eq_def]; simp +decide

theorem jsonStringDecode_esc_n (t : List Char) :
    jsonStringDecode ('\\' :: 'n' :: t) = (jsonStringDecode t).map (fun l => 10 :: l) := by
  rw [jsonStringDecode.eq_def]; simp +decide

theorem jsonStringDecode_esc_r (t : List Char) :
    jsonStringDecode ('\\' :: 'r' :: t) = (jsonStringDecode t).map (fun l => 13 :: l) := by
  rw [jsonStringDecode.eq_def]; simp +decide

theorem jsonStringDecode_esc_t (t : List Char) :
    jsonStringDecode ('\\' :: 't' :: t) = (jsonStringDecode t).map (fun l => 9 :: l) := by
  rw [jsonStringDecode.eq_def]; simp +decide

theorem jsonStringDecode_esc_quote (t : List Char) :
    jsonStringDecode ('\\' :: '"' :: t) = (jsonStringDecode t).map (fun l => 34 :: l) := by
  rw [jsonStringDecode.eq_def]; simp +decide

theorem jsonStringDecode_esc_bslash (t : List Char) :
    jsonStringDecode ('\\' :: '\\' :: t) = (jsonStringDecode t).map (fun l => 92 :: l) := by
  rw [jsonStringDecode.eq_def]; simp +decide

theorem jsonStringDecode_u (a b c d : Char) (t : List Char) :
    jsonStringDecode ('\\' :: 'u' :: a :: b :: c :: d :: t) =
      match hexVal a, hexVal b, hexVal c, hexVal d with
      | some x1, some x2, some x3, some x4 =>
        (jsonStringDecode t).map (fun l => (4096 * x1 + 256 * x2 + 16 * x3 + x4) :: l)
      | _, _, _, _ => none := by
  rw [jsonStringDecode.eq_def]
  simp +decide

theorem char_toNat_ofNat_lt128 : ∀ c : Nat, c < 128 → (Char.ofNat c).toNat = c := by
  decide

/-- Decoding undoes the escape of any single character below `0x10000`. -/
theorem decode_escFull {c : Nat} (hc : c < 65536) (t : List Char) :
    jsonStringDecode (escFull c ++ t) = (jsonStringDecode t).map (fun l => c :: l) := by
  by_cases e1 : c = 8
  · subst e1; exact jsonStringDecode_esc_b t
  by_cases e2 : c = 12
  · subst e2; exact jsonStringDecode_esc_f t
  by_cases e3 : c = 10
  · subst e3; exact jsonStringDecode_esc_n t
  by_cases e4 : c = 13
  · subst e4; exact jsonStringDecode_esc_r t
  by_cases e5 : c = 9
  · subst e5; exact jsonStringDecode_esc_t t
  by_cases e6 : c = 34
  · subst e6; exact jsonStringDecode_esc_quote t
  by_cases e7 : c = 92
  · subst e7; exact jsonStringDecode_esc_bslash t
  by_cases hesc : c < 32 ∨ 127 < c
  · rw [escFull_uescape hesc e1 e2 e3 e4 e5, pad4_hexRep hc]
    show jsonStringDecode ('\\' :: 'u' :: hexDigitChar (c / 4096) :: hexDigitChar (c / 256 % 16)
      :: hexDigitChar (c / 16 % 16) :: hexDigitChar (c % 16) :: t) = _
    rw [jsonStringDecode_u]
    rw [hexVal_hexDigitChar (c / 4096) (by omega),
        hexVal_hexDigitChar (c / 256 % 16) (by omega),
        hexVal_hexDigitChar (c / 16 % 16) (by omega),
        hexVal_hexDigitChar (c % 16) (by omega)]
    show (jsonStringDecode t).map _ = _
    have harith : 4096 * (c / 4096) + 256 * (c / 256 % 16) + 16 * (c / 16 % 16) + c % 16 = c := by
      omega
    rw [harith]
  · push_neg at hesc
    have hr : escFull c = [Char.ofNat c] :=
      escFull_passthrough (by omega) (by omega) e6 e7
    rw [hr]
    have htn : (Char.ofNat c).toNat = c := char_toNat_ofNat_lt128 c (by omega)
    have hne1 : Char.ofNat c ≠ '"' := by
      intro heq
      rw [heq, show ('"').toNat = 34 from rfl] at htn
      omega
    have hne2 : Char.ofNat c ≠ '\\' := by
      intro heq
      rw [heq, show ('\\').toNat = 92 from rfl] at htn
      omega
    show jsonStringDecode (Char.ofNat c :: t) = _
    rw [jsonStringDecode_plain hne1 hne2, htn]

/-- For characters below `0x10000` the escape is never truncated, so the buffer
read-back is just the concatenation of the escapes. -/
theorem encChunks_eq_append {c : Nat} (hc : c < 65536) (cs : List Nat) :
    encChunks (c :: cs) = escFull c ++ encChunks cs := by
  show (if 7 ≤ (escFull c).length then (escFull c).take 6 else escFull c ++ encChunks cs) = _
  rw [if_neg (by have := escFull_length_le6 hc; omega)]

/-- Round trip at the wide-character level: decoding the emitted buffer
reproduces the decoded source exactly, provided no code point exceeds `0xFFFF`. -/
theorem decode_encChunks {ws : List Nat} (h : ∀ c ∈ ws, c < 65536) :
    jsonStringDecode (encChunks ws) = some ws := by
  induction ws with
  | nil => rfl
  | cons c cs ih =>
    have hc : c < 65536 := h c (by simp)
    rw [encChunks_eq_append hc, decode_escFull hc,
        ih (fun x hx => h x (by simp [hx]))]
    rfl

/-! ### Helper lemmas about the store trace of the encoding loop -/

theorem encWrites_nil (i n : Nat) :
    encWrites [] i n = if i < n then ([(i, Char.ofNat 0)], true) else ([], false) := rfl

theorem encWrites_cons (c : Nat) (cs : List Nat) (i n : Nat) :
    encWrites (c :: cs) i n =
      if n ≤ i then ([], false)
      else ((List.enum (escMaterialized c)).map (fun q => (i + q.1, q.2))
              ++ (encWrites cs (i + encAdv c) n).1,
            (encWrites cs (i + encAdv c) n).2) := rfl

theorem escFull_length_ge6_of_uescape {c : Nat}
    (h1 : ¬(c = 8 ∨ c = 12 ∨ c = 10 ∨ c = 13 ∨ c = 9 ∨ c = 34 ∨ c = 92))
    (h2 : c < 32 ∨ 127 < c) : 6 ≤ (escFull c).length := by
  push_neg at h1
  obtain ⟨n1, n2, n3, n4, n5, n6, n7⟩ := h1
  rw [escFull_uescape h2 n1 n2 n3 n4 n5]
  simp only [List.length_cons, pad4_length]
  omega

theorem escMaterialized_length_le7 (c : Nat) : (escMaterialized c).length ≤ 7 := by
  unfold escMaterialized
  split_ifs with h1 h2
  · rcases h1 with rfl | rfl | rfl | rfl | rfl | rfl | rfl <;> decide
  · simp only [List.length_append, List.length_take, List.length_singleton]
    omega
  · norm_num

theorem escMaterialized_length_le_adv (c : Nat) :
    (escMaterialized c).length ≤ encAdv c + 1 := by
  unfold escMaterialized encAdv
  split_ifs with h1 h2
  · simp
  · have h6 : 6 ≤ (escFull c).length := escFull_length_ge6_of_uescape h1 h2
    simp only [List.length_append, List.length_take, List.length_singleton]
    omega
  · have hp : escFull c = [Char.ofNat c] := by
      push_neg at h1 h2
      exact escFull_passthrough (by omega) (by omega) (by omega) (by omega)
    rw [hp]
    norm_num

/-- The loop returns 0 exactly when the whole escaped text plus its terminating 0
fits below `dst_end`. -/
theorem encWrites_ok_iff (ws : List Nat) : ∀ i n : Nat,
    ((encWrites ws i n).2 = true ↔ i + encTotalAdv ws < n) := by
  induction ws with
  | nil =>
    intro i n
    rw [encWrites_nil]
    by_cases h : i < n
    · simp [h, encTotalAdv]
    · simp [h, encTotalAdv]
  | cons c cs ih =>
    intro i n
    rw [encWrites_cons]
    by_cases h : n ≤ i
    · simp [h, encTotalAdv]
      omega
    · simp only [h, if_false]
      rw [ih (i + encAdv c) n]
      simp [encTotalAdv]
      omega

/-- No store ever lands 6 or more bytes past the end of the buffer. -/
theorem encWrites_offset_lt_add6 (ws : List Nat) : ∀ i n : Nat,
    ∀ q ∈ (encWrites ws i n).1, q.1 < n + 6 := by
  induction ws with
  | nil =>
    intro i n q hq
    rw [encWrites_nil] at hq
    by_cases h : i < n
    · simp [h] at hq
      subst hq
      show i < n + 6
      omega
    · simp [h] at hq
  | cons c cs ih =>
    intro i n q hq
    rw [encWrites_cons] at hq
    by_cases h : n ≤ i
    · simp [h] at hq
    · simp only [h, if_false, List.mem_append, List.mem_map] at hq
      rcases hq with ⟨p, hp, rfl⟩ | hq
      · obtain ⟨hidx, -⟩ := List.getElem?_eq_some.mp (List.mem_enum_iff_getElem?.mp hp)
        have h7 := escMaterialized_length_le7 c
        show i + p.1 < n + 6
        omega
      · exact ih (i + encAdv c) n q hq

/-- On success every store lands strictly inside the buffer. -/
theorem encWrites_offset_lt_of_ok (ws : List Nat) : ∀ i n : Nat,
    (encWrites ws i n).2 = true → ∀ q ∈ (encWrites ws i n).1, q.1 < n := by
  induction ws with
  | nil =>
    intro i n hok q hq
    rw [encWrites_nil] at hok hq
    by_cases h : i < n
    · simp [h] at hq
      subst hq
      show i < n
      omega
    · simp [h] at hok
  | cons c cs ih =>
    intro i n hok q hq
    rw [encWrites_cons] at hok hq
    by_cases h : n ≤ i
    · simp [h] at hok
    · simp only [h, if_false] at hok hq
      have hroom : i + encAdv c + encTotalAdv cs < n :=
        (encWrites_ok_iff cs (i + encAdv c) n).mp hok
      simp only [List.mem_append, List.mem_map] at hq
      rcases hq with ⟨p, hp, rfl⟩ | hq
      · obtain ⟨hidx, -⟩ := List.getElem?_eq_some.mp (List.mem_enum_iff_getElem?.mp hp)
        have hadv := escMaterialized_length_le_adv c
        show i + p.1 < n
        omega
      · exact ih (i + encAdv c) n hok q hq

/-- On success the terminating 0 is stored at offset `i + encTotalAdv ws`. -/
theorem encWrites_nul_mem (ws : List Nat) : ∀ i n : Nat,
    (encWrites ws i n).2 = true →
    (i + encTotalAdv ws, Char.ofNat 0) ∈ (encWrites ws i n).1 := by
  induction ws with
  | nil =>
    intro i n hok
    rw [encWrites_nil] at hok ⊢
    by_cases h : i < n
    · simp [h, encTotalAdv]
    · simp [h] at hok
  | cons c cs ih =>
    intro i n hok
    rw [encWrites_cons] at hok ⊢
    by_cases h : n ≤ i
    · simp [h] at hok
    · simp only [h, if_false] at hok ⊢
      apply List.mem_append_right
      have := ih (i + encAdv c) n hok
      have harr : i + encAdv c + encTotalAdv cs = i + encTotalAdv (c :: cs) := by
        simp [encTotalAdv]
        omega
      rw [harr] at this
      exact this

/-- With every code point below `0x10000` the buffer read-back is the plain
concatenation of all the escapes. -/
theorem encChunks_eq_flatten {ws : List Nat} (h : ∀ c ∈ ws, c < 65536) :
    encChunks ws = (ws.map escFull).flatten := by
  induction ws with
  | nil => rfl
  | cons c cs ih =>
    rw [encChunks_eq_append (h c (by simp)), ih (fun x hx => h x (by simp [hx]))]
    simp

/-! ### Helper lemmas about the environment vector transformer -/

theorem envEntryMatches_iff {key entry : List Char} :
    envEntryMatches key entry = true ↔ ∃ r, entry = key ++ '=' :: r := by
  constructor
  · intro h
    simp only [envEntryMatches, Bool.and_eq_true, decide_eq_true_eq] at h
    obtain ⟨⟨hpre, hlen⟩, hdrop⟩ := h
    obtain ⟨t, ht⟩ := List.isPrefixOf_iff_prefix.mp hpre
    subst ht
    rw [List.drop_left] at hdrop
    cases t with
    | nil => simp at hlen
    | cons c r =>
      refine ⟨r, ?_⟩
      have hc : c = '=' := by simpa using hdrop
      rw [hc]
  · rintro ⟨r, rfl⟩
    simp only [envEntryMatches, Bool.and_eq_true, decide_eq_true_eq]
    refine ⟨⟨List.isPrefixOf_iff_prefix.mpr (List.prefix_append key ('=' :: r)), by simp⟩, ?_⟩
    rw [List.drop_left]
    rfl

theorem envEntryMatches_mk (key value : List Char) :
    envEntryMatches key (mkEnvEntry key value) = true :=
  envEntryMatches_iff.mpr ⟨value, rfl⟩

theorem single_update_nil (k v : List Char) :
    string_array_single_update [] k v = [mkEnvEntry k v] := rfl

theorem single_update_cons (e : List Char) (rest : List (List Char)) (k v : List Char) :
    string_array_single_update (e :: rest) k v =
      if envEntryMatches k e then mkEnvEntry k v :: rest
      else e :: string_array_single_update rest k v := rfl

/-- Replacing an existing entry: in-place, position- and length-preserving. -/
theorem single_update_replace (key value : List Char) :
    ∀ (pre : List (List Char)) (rest : List Char) (post : List (List Char)),
    (∀ e ∈ pre, ∀ r : List Char, e ≠ key ++ '=' :: r) →
    string_array_single_update (pre ++ (key ++ '=' :: rest) :: post) key value
      = pre ++ (key ++ '=' :: value) :: post := by
  intro pre
  induction pre with
  | nil =>
    intro rest post _
    rw [List.nil_append, single_update_cons,
        if_pos (envEntryMatches_iff.mpr ⟨rest, rfl⟩)]
    rfl
  | cons e pre ih =>
    intro rest post hno
    rw [List.cons_append, single_update_cons, if_neg ?hne, ih rest post
          (fun x hx => hno x (by simp [hx]))]
    · rfl
    case hne =>
      intro hm
      obtain ⟨r, hr⟩ := envEntryMatches_iff.mp hm
      exact hno e (by simp) r hr

/-- Appending when no entry has the key. -/
theorem single_update_append (key value : List Char) :
    ∀ envs : List (List Char),
    (∀ e ∈ envs, ∀ r : List Char, e ≠ key ++ '=' :: r) →
    string_array_single_update envs key value = envs ++ [key ++ '=' :: value] := by
  intro envs
  induction envs with
  | nil => intro _; rfl
  | cons e rest ih =>
    intro hno
    rw [single_update_cons, if_neg ?hne, ih (fun x hx => hno x (by simp [hx]))]
    · rfl
    case hne =>
      intro hm
      obtain ⟨r, hr⟩ := envEntryMatches_iff.mp hm
      exact hno e (by simp) r hr

/-- Repeating the same update is the identity on the already-updated vector. -/
theorem single_update_idem (k v : List Char) :
    ∀ envs : List (List Char),
    string_array_single_update (string_array_single_update envs k v) k v
      = string_array_single_update envs k v := by
  intro envs
  induction envs with
  | nil =>
    rw [single_update_nil, single_update_cons, if_pos (envEntryMatches_mk k v)]
  | cons e rest ih =>
    rw [single_update_cons]
    by_cases h : envEntryMatches k e = true
    · rw [if_pos h, single_update_cons, if_pos (envEntryMatches_mk k v)]
    · rw [if_neg h, single_update_cons, if_neg h, ih]

/-- An interposed update under a different key (neither key's fresh entry matches
the other key) does not disturb idempotence. -/
theorem single_update_other_absorb (k kp v vp : List Char)
    (hc1 : ∀ w : List Char, envEntryMatches k (mkEnvEntry kp w) ≠ true)
    (hc2 : ∀ w : List Char, envEntryMatches kp (mkEnvEntry k w) ≠ true) :
    ∀ envs : List (List Char),
    string_array_single_update (string_array_single_update
        (string_array_single_update envs k v) kp vp) k v
      = string_array_single_update (string_array_single_update envs k v) kp vp := by
  intro envs
  induction envs with
  | nil =>
    rw [single_update_nil, single_update_cons, if_neg (hc2 v), single_update_nil,
        single_update_cons, if_pos (envEntryMatches_mk k v)]
  | cons e rest ih =>
    rw [single_update_cons]
    by_cases h1 : envEntryMatches k e = true
    · rw [if_pos h1, single_update_cons, if_neg (hc2 v), single_update_cons,
          if_pos (envEntryMatches_mk k v)]
    · rw [if_neg h1, single_update_cons]
      by_cases h2 : envEntryMatches kp e = true
      · rw [if_pos h2, single_update_cons, if_neg (hc1 vp), single_update_idem]
      · rw [if_neg h2, single_update_cons, if_neg h1, ih]

theorem no_cross_out_pre :
    ∀ w : List Char, envEntryMatches envOutputName (mkEnvEntry envPreloadName w) ≠ true := by
  intro w hm
  obtain ⟨r, hr⟩ := envEntryMatches_iff.mp hm
  rw [show mkEnvEntry envPreloadName w = 'L' :: ("D_PRELOAD".toList ++ '=' :: w) from rfl,
      show envOutputName ++ '=' :: r
         = 'I' :: ("NTERCEPT_BUILD_TARGET_DIR".toList ++ '=' :: r) from rfl] at hr
  simp at hr

theorem no_cross_pre_out :
    ∀ w : List Char, envEntryMatches envPreloadName (mkEnvEntry envOutputName w) ≠ true := by
  intro w hm
  obtain ⟨r, hr⟩ := envEntryMatches_iff.mp hm
  rw [show mkEnvEntry envOutputName w = 'I' :: ("NTERCEPT_BUILD_TARGET_DIR".toList ++ '=' :: w) from rfl,
      show envPreloadName ++ '=' :: r
         = 'L' :: ("D_PRELOAD".toList ++ '=' :: r) from rfl] at hr
  simp at hr

/-! ### Helper lemmas about the partial update and the captured environment -/

theorem capturedPrefix_nil_env (ns : List (List Char)) : capturedPrefix [] ns = [] := by
  cases ns <;> rfl

theorem capturedPrefix_none (es : List (Option (List Char))) (ns : List (List Char)) :
    capturedPrefix (none :: es) ns = [] := by
  cases ns <;> rfl

theorem capturedPrefix_some (v : List Char) (es : List (Option (List Char)))
    (n : List Char) (ns : List (List Char)) :
    capturedPrefix (some v :: es) (n :: ns) = (n, v) :: capturedPrefix es ns := rfl

theorem capturedPrefix_nil_names (es : List (Option (List Char))) :
    capturedPrefix es [] = [] := by
  cases es with
  | nil => rfl
  | cons s t => cases s <;> rfl

theorem partial_update_none_head (envp : Option (List (List Char)))
    (rest : List (Option (List Char))) :
    string_array_partial_update envp (none :: rest) = string_array_copy envp := rfl

theorem capturedPrefix_two (a b : List Char) (rest : List (Option (List Char))) :
    capturedPrefix (some a :: some b :: rest) env_names
      = [(envOutputName, a), (envPreloadName, b)] := by
  show capturedPrefix (some a :: some b :: rest) [envOutputName, envPreloadName] = _
  rw [capturedPrefix_some, capturedPrefix_some, capturedPrefix_nil_names]

/-- With both slots present the loop applies exactly the two updates, in slot
order. -/
theorem partial_update_two (envp : Option (List (List Char))) (a b : List Char)
    (rest : List (Option (List Char))) :
    string_array_partial_update envp (some a :: some b :: rest)
      = string_array_single_update
          (string_array_single_update (string_array_copy envp) envOutputName a)
          envPreloadName b := by
  unfold string_array_partial_update
  rw [capturedPrefix_two]
  rfl

theorem partial_update_nil_env (envp : Option (List (List Char))) :
    string_array_partial_update envp [] = string_array_copy envp := rfl

/-- The eager status fold of `capture_env_t` is the conjunction of per-slot
presence. -/
theorem capture_foldl_eq (slots : List (Option (List Char))) : ∀ b : Bool,
    slots.foldl (fun st v => st && v.isSome) b = (b && slots.all (fun v => v.isSome)) := by
  induction slots with
  | nil => intro b; simp
  | cons s rest ih =>
    intro b
    show rest.foldl _ (b && s.isSome) = _
    rw [ih (b && s.isSome)]
    simp [Bool.and_assoc]

theorem capture_status_false {slots : List (Option (List Char))} {i : Nat}
    (h : slots.get? i = some none) : (capture_env_t slots).2 = false := by
  show slots.foldl _ true = false
  rw [capture_foldl_eq slots true]
  simp only [Bool.true_and]
  have hmem : (none : Option (List Char)) ∈ slots := List.get?_mem h
  rcases hall : slots.all (fun v => v.isSome) with _ | _
  · rfl
  · have := List.all_eq_true.mp hall none hmem
    simp at this

theorem capture_status_true {slots : List (Option (List Char))}
    (h : ∀ s ∈ slots, s.isSome = true) : (capture_env_t slots).2 = true := by
  show slots.foldl _ true = true
  rw [capture_foldl_eq slots true]
  simp only [Bool.true_and]
  exact List.all_eq_true.mpr h

theorem on_load_env (slots : List (Option (List Char))) :
    (on_load slots).initial_env = slots := rfl

/-! ### Helper lemmas about the report writer -/

theorem cmd_loop_nil (f : Bool) : write_json_cmd_loop [] f = some [] := rfl

theorem cmd_loop_cons (s : List Nat) (rest : List (List Nat)) (f : Bool) :
    write_json_cmd_loop (s :: rest) f =
      (encode_json_string s (6 * s.length + 1)).bind fun enc =>
        (write_json_cmd_loop rest false).map fun tail =>
          (if f then [] else [',']) ++ ' ' :: '"' :: (enc ++ '"' :: tail) := rfl

/-- Whenever the `cmd` loop succeeds, its output is the comma-separated quoted
list of the per-argument encodings, one per argument in order. -/
theorem cmd_loop_shape : ∀ (args : List (List Nat)) (f : Bool) (body : List Char),
    write_json_cmd_loop args f = some body →
    ∃ encs : List (List Char),
      List.Forall₂ (fun s e => encode_json_string s (6 * s.length + 1) = some e) args encs ∧
      body = specCmdBody encs f := by
  intro args
  induction args with
  | nil =>
    intro f body h
    rw [cmd_loop_nil] at h
    cases h
    exact ⟨[], List.Forall₂.nil, rfl⟩
  | cons s rest ih =>
    intro f body h
    rw [cmd_loop_cons] at h
    cases he : encode_json_string s (6 * s.length + 1) with
    | none => rw [he] at h; cases h
    | some enc =>
      rw [he] at h
      cases ht : write_json_cmd_loop rest false with
      | none => rw [ht] at h; cases h
      | some tail =>
        rw [ht] at h
        obtain ⟨encs, hrel, hbody⟩ := ih false tail ht
        refine ⟨enc :: encs, List.Forall₂.cons he hrel, ?_⟩
        simp at h
        rw [← h, hbody]
        simp [specCmdBody]


/-! ## Claim theorems -/

/-- C2 counterexample: the claim requires every character outside 0x20–0x7E —
"including 0x7F" — to become a `\uXXXX` escape, but the encoder's guard is
`(*wsrc_it < L' ') || (*wsrc_it > 127)`, so DEL (0x7F) passes through unchanged
(also visible through the full `encode_json_string`). -/
theorem C2_del_counterexample :
    escFull 127 = [Char.ofNat 127] ∧
    escFull 127 ≠ '\\' :: 'u' :: pad4 (hexRep 127) ∧
    encode_json_string [127] 10 = some [Char.ofNat 127] := by
  refine ⟨rfl, by decide, by decide⟩

/-- C2 (amended): the JSON string encoder maps backspace, form-feed, newline,
carriage-return, tab, double-quote and backslash to their two-character escapes;
every character below 0x20 or above 0x7F becomes a `\uXXXX` escape whose four
hexadecimal digits recombine to the code point; every character in 0x20–0x7F
other than quote and backslash passes through unchanged (so 0x7F passes through,
unlike the claim's 0x20–0x7E range). -/
theorem C2_char_mapping (c : Nat) (hc : c < 65536) :
    (c = 8 → escFull c = ['\\', 'b']) ∧
    (c = 12 → escFull c = ['\\', 'f']) ∧
    (c = 10 → escFull c = ['\\', 'n']) ∧
    (c = 13 → escFull c = ['\\', 'r']) ∧
    (c = 9 → escFull c = ['\\', 't']) ∧
    (c = 34 → escFull c = ['\\', '"']) ∧
    (c = 92 → escFull c = ['\\', '\\']) ∧
    ((c < 32 ∨ 127 < c) → ¬(c = 8 ∨ c = 12 ∨ c = 10 ∨ c = 13 ∨ c = 9) →
      escFull c = ['\\', 'u', hexDigitChar (c / 4096), hexDigitChar (c / 256 % 16),
        hexDigitChar (c / 16 % 16), hexDigitChar (c % 16)] ∧
      4096 * (c / 4096) + 256 * (c / 256 % 16) + 16 * (c / 16 % 16) + c % 16 = c) ∧
    (32 ≤ c → c ≤ 127 → c ≠ 34 → c ≠ 92 →
      escFull c = [Char.ofNat c] ∧ (Char.ofNat c).toNat = c) := by
  refine ⟨fun h => by subst h; rfl, fun h => by subst h; rfl, fun h => by subst h; rfl,
    fun h => by subst h; rfl, fun h => by subst h; rfl, fun h => by subst h; rfl,
    fun h => by subst h; rfl, ?_, ?_⟩
  · intro h hn
    push_neg at hn
    obtain ⟨n1, n2, n3, n4, n5⟩ := hn
    have h34 : c ≠ 34 := by omega
    have h92 : c ≠ 92 := by omega
    constructor
    · rw [escFull_uescape h n1 n2 n3 n4 n5, pad4_hexRep hc]
    · omega
  · intro h1 h2 h3 h4
    exact ⟨escFull_passthrough h1 h2 h3 h4, char_toNat_ofNat_lt128 c (by omega)⟩

/-- C2 witness: the amended mapping evaluated at the non-ASCII character U+00A0. -/
theorem C2_char_mapping_witness :
    escFull 160 = ['\\', 'u', hexDigitChar (160 / 4096), hexDigitChar (160 / 256 % 16),
      hexDigitChar (160 / 16 % 16), hexDigitChar (160 % 16)] ∧
    4096 * (160 / 4096) + 256 * (160 / 256 % 16) + 16 * (160 / 16 % 16) + 160 % 16 = 160 :=
  (C2_char_mapping 160 (by decide)).2.2.2.2.2.2.2.1 (by decide) (by decide)

/-- C3 counterexample: for U+10000 (UTF-8 bytes F0 90 80 80) the `snprintf`
format `"\\u%04x"` needs five hex digits and its 7-byte cap truncates the store,
so the emitted `cmd` text is `က`, which decodes to U+1000, not U+10000 —
the round trip fails even though `encode_json_string` reports success. -/
theorem C3_astral_counterexample :
    utf8Decode [240, 144, 128, 128] = some [65536] ∧
    encode_json_string [240, 144, 128, 128] 25 = some ['\\', 'u', '1', '0', '0', '0'] ∧
    jsonStringDecode ['\\', 'u', '1', '0', '0', '0'] = some [4096] ∧
    jsonStringDecode ((encode_json_string [240, 144, 128, 128] 25).getD [])
      ≠ some [65536] := by
  refine ⟨by decide, by decide, by decide, by decide⟩

/-- C3 (amended): whenever `encode_json_string` succeeds and every decoded code
point is below 0x10000, decoding the produced escapes reproduces the decoded
source string exactly; for code points at or above 0x10000 the escape carries
more than four hex digits (truncated by the size-capped `snprintf`) and the
round trip fails. -/
theorem C3_roundtrip (src : List Nat) (n : Nat) (ws : List Nat) (out : List Char)
    (hdec : utf8Decode src = some ws) (hbmp : ∀ c ∈ ws, c < 65536)
    (henc : encode_json_string src n = some out) :
    jsonStringDecode out = some ws := by
  simp only [encode_json_string, hdec] at henc
  rcases Bool.eq_false_or_eq_true ((encWrites ws 0 n).2) with hb | hb
  all_goals rw [hb] at henc; simp at henc
  · rw [← henc]
    exact decode_encChunks hbmp

/-- C3 witness: round trip on a string holding a letter, a quote, a newline and
the two-byte UTF-8 character U+00E9. -/
theorem C3_roundtrip_witness :
    jsonStringDecode ['a', '\\', '"', '\\', 'n', '\\', 'u', '0', '0', 'e', '9']
      = some [97, 34, 10, 233] :=
  C3_roundtrip [97, 34, 10, 195, 169] 31 [97, 34, 10, 233]
    ['a', '\\', '"', '\\', 'n', '\\', 'u', '0', '0', 'e', '9']
    (by decide) (by decide) (by decide)

/-- C4: `string_array_single_update` replaces the first entry whose key component
equals the key exactly — same slot, same index, all other entries unchanged,
length preserved — and appends `key=value` as the new last entry when no entry
has that key (entries whose key merely starts with the key, lacking `=` at the
key's length, are not matched: they fall under the "no entry of the form
`key ++ '=' :: r`" hypothesis). -/
theorem C4_single_update (key value : List Char) :
    (∀ (pre : List (List Char)) (oldv : List Char) (post : List (List Char)),
      (∀ e ∈ pre, ∀ r : List Char, e ≠ key ++ '=' :: r) →
      string_array_single_update (pre ++ (key ++ '=' :: oldv) :: post) key value
        = pre ++ (key ++ '=' :: value) :: post) ∧
    (∀ envs : List (List Char),
      (∀ e ∈ envs, ∀ r : List Char, e ≠ key ++ '=' :: r) →
      string_array_single_update envs key value = envs ++ [key ++ '=' :: value]) :=
  ⟨single_update_replace key value, single_update_append key value⟩

/-- C4 witness: replacing the first (and only) `K` entry in a two-entry vector. -/
theorem C4_single_update_witness :
    string_array_single_update
        [('K' : Char) :: '=' :: ['o'], ('B' : Char) :: '=' :: ['2']] ['K'] ['n']
      = [('K' : Char) :: '=' :: ['n'], ('B' : Char) :: '=' :: ['2']] :=
  (C4_single_update ['K'] ['n']).1 [] ['o'] [('B' : Char) :: '=' :: ['2']]
    (fun e he => absurd he (List.not_mem_nil e))

/-- C10: every string-array utility treats a NULL pointer as the empty sequence:
length 0, a fresh non-NULL sentinel-only copy, a release that frees no entries,
and a report whose `cmd` array is empty — identical to the report for an empty
argument vector. -/
theorem C10_null_array_safety :
    string_array_length (none : Option (List (List Nat))) = 0 ∧
    string_array_copy (none : Option (List (List Nat))) = [] ∧
    string_array_release (none : Option (List (List Nat))) = [] ∧
    (∀ (cwd : List Nat) (pid : Nat),
      write_json_report none cwd pid = write_json_report (some []) cwd pid) ∧
    write_json_report none ("/tmp".toList.map Char.toNat) 7
      = some "\x7b \"pid\": 7, \"cmd\": [], \"cwd\": \"/tmp\" \x7d".toList := by
  refine ⟨rfl, rfl, rfl, fun cwd pid => rfl, by decide⟩

/-- C1 counterexample: at the claim's own example (argv `/bin/echo`, `a"b`; cwd
`/tmp`; pid 4242) the emitted body is
`{ "pid": 4242, "cmd": [ "/bin/echo", "a\\"b"], "cwd": "/tmp" }` — the entry
format `"%s \\"%s\\""` puts a space only before each entry and the closing
`"], ..."` follows the final quote directly, so there is no space before `]`,
unlike the claimed body. -/
theorem C1_report_example_counterexample :
    write_json_report (some ["/bin/echo".toList.map Char.toNat, "a\"b".toList.map Char.toNat])
        ("/tmp".toList.map Char.toNat) 4242
      = some "\x7b \"pid\": 4242, \"cmd\": [ \"/bin/echo\", \"a\\\"b\"], \"cwd\": \"/tmp\" \x7d".toList ∧
    write_json_report (some ["/bin/echo".toList.map Char.toNat, "a\"b".toList.map Char.toNat])
        ("/tmp".toList.map Char.toNat) 4242
      ≠ some "\x7b \"pid\": 4242, \"cmd\": [ \"/bin/echo\", \"a\\\"b\" ], \"cwd\": \"/tmp\" \x7d".toList := by
  refine ⟨by decide, by decide⟩

/-- C1 (amended): whenever `write_json_report` succeeds it emits a single JSON
object with exactly the keys `pid`, `cmd`, `cwd` in this fixed order and nothing
after the closing brace: the decimal pid, then the encoded arguments quoted and
comma-separated in exactly argv order (empty argv gives an empty array), then
the encoded cwd; at the claim's example the body is
`{ "pid": 4242, "cmd": [ "/bin/echo", "a\\"b"], "cwd": "/tmp" }` with no space
before the closing bracket. -/
theorem C1_report_shape (argv : List (List Nat)) (cwd : List Nat) (pid : Nat) (out : List Char)
    (h : write_json_report (some argv) cwd pid = some out) :
    ∃ (encs : List (List Char)) (cwdEnc : List Char),
      List.Forall₂ (fun s e => encode_json_string s (6 * s.length + 1) = some e) argv encs ∧
      encode_json_string cwd (6 * cwd.length) = some cwdEnc ∧
      out = specReportShape pid encs cwdEnc := by
  simp only [write_json_report] at h
  cases hl : write_json_cmd_loop argv true with
  | none => rw [hl] at h; cases h
  | some entries =>
    rw [hl] at h
    cases hc : encode_json_string cwd (6 * cwd.length) with
    | none => rw [hc] at h; cases h
    | some cwdEnc =>
      rw [hc] at h
      simp at h
      obtain ⟨encs, hrel, hbody⟩ := cmd_loop_shape argv true entries hl
      refine ⟨encs, cwdEnc, hrel, rfl, ?_⟩
      rw [← h, hbody]
      simp [specReportShape, jsonHeader]

/-- C1 witness: the shape theorem applied at the claim's example input. -/
theorem C1_report_shape_witness :
    ∃ (encs : List (List Char)) (cwdEnc : List Char),
      List.Forall₂ (fun s e => encode_json_string s (6 * s.length + 1) = some e)
        ["/bin/echo".toList.map Char.toNat, "a\"b".toList.map Char.toNat] encs ∧
      encode_json_string ("/tmp".toList.map Char.toNat)
          (6 * ("/tmp".toList.map Char.toNat).length) = some cwdEnc ∧
      "\x7b \"pid\": 4242, \"cmd\": [ \"/bin/echo\", \"a\\\"b\"], \"cwd\": \"/tmp\" \x7d".toList
        = specReportShape 4242 encs cwdEnc :=
  C1_report_shape ["/bin/echo".toList.map Char.toNat, "a\"b".toList.map Char.toNat]
    ("/tmp".toList.map Char.toNat) 4242
    "\x7b \"pid\": 4242, \"cmd\": [ \"/bin/echo\", \"a\\\"b\"], \"cwd\": \"/tmp\" \x7d".toList
    (by decide)

/-- C5 counterexample: the update loop `it < ENV_SIZE && (*env)[it]` stops at the
first absent slot instead of skipping it, so with slot 0 (the output directory)
absent and slot 1 (the preload variable) captured, no update at all is applied —
contradicting "single_update once for each captured (key, value) pair". -/
theorem C5_skip_counterexample :
    string_array_partial_update (some []) [none, some ['x']] = [] ∧
    (specCapturedPairs [none, some ['x']] env_names).foldl
        (fun acc kv => string_array_single_update acc kv.1 kv.2)
        (string_array_copy (some ([] : List (List Char))))
      = [mkEnvEntry envPreloadName ['x']] ∧
    string_array_partial_update (some []) [none, some ['x']]
      ≠ (specCapturedPairs [none, some ['x']] env_names).foldl
          (fun acc kv => string_array_single_update acc kv.1 kv.2)
          (string_array_copy (some ([] : List (List Char)))) := by
  refine ⟨rfl, by decide, by decide⟩

/-- C5 (amended): `string_array_partial_update` copies the input vector and then
applies `single_update` once for each captured (key, value) pair in the maximal
all-present prefix of the captured slots, in slot order: with both slots present
both updates run, with slot 0 absent the loop stops immediately and the result
is just the fresh copy regardless of slot 1, and with only slot 0 present only
the output-directory update runs. -/
theorem C5_partial_update (envp : Option (List (List Char))) :
    (∀ rest : List (Option (List Char)),
      string_array_partial_update envp (none :: rest) = string_array_copy envp) ∧
    (∀ (a : List Char) (rest : List (Option (List Char))),
      string_array_partial_update envp (some a :: none :: rest)
        = string_array_single_update (string_array_copy envp) envOutputName a) ∧
    (∀ (a b : List Char) (rest : List (Option (List Char))),
      string_array_partial_update envp (some a :: some b :: rest)
        = string_array_single_update
            (string_array_single_update (string_array_copy envp) envOutputName a)
            envPreloadName b) :=
  ⟨fun _ => rfl, fun _ _ => rfl, fun a b rest => partial_update_two envp a b rest⟩

/-- C6: applying `string_array_partial_update` twice with the same captured
slots yields exactly the vector obtained by applying it once — same entries,
same order, same length. -/
theorem C6_partial_update_idempotent (envp : Option (List (List Char)))
    (env : List (Option (List Char))) :
    string_array_partial_update (some (string_array_partial_update envp env)) env
      = string_array_partial_update envp env := by
  rcases env with _ | ⟨_ | a, rest⟩
  · rfl
  · rfl
  · rcases rest with _ | ⟨_ | b, rest2⟩
    · exact single_update_idem envOutputName a (string_array_copy envp)
    · exact single_update_idem envOutputName a (string_array_copy envp)
    · rw [partial_update_two envp a b rest2,
          partial_update_two (some (string_array_single_update
            (string_array_single_update (string_array_copy envp) envOutputName a)
            envPreloadName b)) a b rest2]
      show string_array_single_update (string_array_single_update
          (string_array_single_update (string_array_single_update
            (string_array_copy envp) envOutputName a) envPreloadName b)
          envOutputName a) envPreloadName b = _
      rw [single_update_other_absorb envOutputName envPreloadName a b
            no_cross_out_pre no_cross_pre_out (string_array_copy envp)]
      exact single_update_idem envPreloadName b
        (string_array_single_update (string_array_copy envp) envOutputName a)

/-- C7 counterexample: the shim can be unarmed with the output-directory slot
captured (the preload slot failed, so the armed flag stays 0 — the state
`on_load` produces).  Then `string_array_partial_update` still forces the
output-directory variable into the environment handed to the real call, so for
an environment-sensitive real implementation the wrapper's result differs from
the direct call on the same arguments — the claimed pass-through fails for this
unarmed state. -/
theorem C7_disarmed_counterexample :
    on_load [some ['d'], none] = ⟨[some ['d'], none], false⟩ ∧
    intercepted_call (fun _ e => e) ⟨[some ['d'], none], false⟩ none (some []) [] 0
      = (none, [mkEnvEntry envOutputName ['d']]) ∧
    intercepted_call (fun _ e => e) ⟨[some ['d'], none], false⟩ none (some []) [] 0
      ≠ (none, ([] : List (List Char))) := by
  refine ⟨by decide, by decide, by decide⟩

/-- C7 (amended): whenever the output-directory slot was not captured — in
particular when the variable is unset at load time, which also leaves the armed
flag false — `report_call` performs no action and creates no report file, and
every intercepted entry point returns exactly the pair (no report, result of the
real implementation on the caller's own unmodified environment). -/
theorem C7_disarmed_passthrough {ρ : Type}
    (real : Option (List (List Nat)) → List (List Char) → ρ)
    (argv : Option (List (List Nat))) (envp : List (List Char))
    (cwd : List Nat) (pid : Nat) :
    (∀ s : ShimState, s.initial_env.headD none = none → s.initialized = false →
      report_call s argv cwd pid = none ∧
      intercepted_call real s argv (some envp) cwd pid = (none, real argv envp)) ∧
    (∀ rest : List (Option (List Char)),
      (on_load (none :: rest)).initialized = false ∧
      intercepted_call real (on_load (none :: rest)) argv (some envp) cwd pid
        = (none, real argv envp)) := by
  have hmain : ∀ s : ShimState, s.initial_env.headD none = none → s.initialized = false →
      report_call s argv cwd pid = none ∧
      intercepted_call real s argv (some envp) cwd pid = (none, real argv envp) := by
    intro s h0 harm
    have hrep : report_call s argv cwd pid = none := by
      unfold report_call
      rw [harm]
      rfl
    refine ⟨hrep, ?_⟩
    have hpu : string_array_partial_update (some envp) s.initial_env = envp := by
      rcases henv : s.initial_env with _ | ⟨v, t⟩
      · rfl
      · rw [henv] at h0
        simp at h0
        subst h0
        exact partial_update_none_head (some envp) t
    unfold intercepted_call
    rw [hrep, hpu]
  refine ⟨hmain, fun rest => ?_⟩
  have harm : (on_load (none :: rest)).initialized = false :=
    @capture_status_false (none :: rest) 0 rfl
  exact ⟨harm, (hmain (on_load (none :: rest)) rfl harm).2⟩

/-- C7 witness: the pass-through at a concrete unarmed state with no captured
slots. -/
theorem C7_disarmed_passthrough_witness :
    report_call ⟨[none, none], false⟩ none [] 0 = none ∧
    intercepted_call (fun _ e => e) ⟨[none, none], false⟩ none (some []) [] 0
      = (none, ([] : List (List Char))) :=
  (C7_disarmed_passthrough (fun _ e => e) none [] [] 0).1 ⟨[none, none], false⟩ rfl rfl

/-- C8 counterexample: after a failed capture (slot 1 absent) the shim is never
armed, so `on_unload` skips `mt_safe_on_unload` entirely and the successfully
captured slot 0 is NOT freed (not set back to null) at unload, contrary to the
claim. -/
theorem C8_unload_leak_counterexample :
    on_unload (on_load [some ['d'], none]) = ⟨[some ['d'], none], false⟩ ∧
    (on_unload (on_load [some ['d'], none])).initial_env
      ≠ [(none : Option (List Char)), none] := by
  refine ⟨by decide, by decide⟩

/-- C8 (amended): if any slot's capture fails, the overall status is 0 and the
armed flag is never set, while every slot — captured or not — is still stored;
`release_env_t` frees every slot back to null, but `on_unload` invokes the
release only when the shim was armed, so after a failed capture the partially
captured slots are left stored, not freed, at unload (only a fully successful
capture is released at unload). -/
theorem C8_partial_capture (slots : List (Option (List Char))) :
    (∀ i : Nat, slots.get? i = some none →
      (capture_env_t slots).2 = false ∧
      (on_load slots).initialized = false ∧
      (on_load slots).initial_env = slots ∧
      on_unload (on_load slots) = ⟨slots, false⟩) ∧
    (release_env_t slots = slots.map (fun _ => none)) ∧
    ((∀ s ∈ slots, s.isSome = true) →
      on_unload (on_load slots) = ⟨slots.map (fun _ => none), false⟩) := by
  refine ⟨?_, rfl, ?_⟩
  · intro i h
    have hst : (capture_env_t slots).2 = false := capture_status_false h
    have harm : (on_load slots).initialized = false := hst
    refine ⟨hst, harm, on_load_env slots, ?_⟩
    unfold on_unload
    rw [harm]
    rfl
  · intro hall
    have hst : (capture_env_t slots).2 = true := capture_status_true hall
    have harm : (on_load slots).initialized = true := hst
    unfold on_unload
    rw [harm]
    rfl

/-- C8 witness: the failed-capture facts at the concrete state with slot 0
captured and slot 1 absent. -/
theorem C8_partial_capture_witness :
    (capture_env_t [some ['d'], none]).2 = false ∧
    (on_load [some ['d'], none]).initialized = false ∧
    (on_load [some ['d'], none]).initial_env = [some ['d'], none] ∧
    on_unload (on_load [some ['d'], none]) = ⟨[some ['d'], none], false⟩ :=
  (C8_partial_capture [some ['d'], none]).1 1 rfl

/-- C9 counterexample: with a 1-byte buffer and the input string `"\b"` the loop
guard `dst_it >= dst_end` passes (0 < 1), and `snprintf(dst_it, 3, "\\b")`
stores three bytes — at offsets 0, 1 and 2, the last two past the end of the
destination buffer — before the error is reported, so "never writes any byte
past the end of the destination buffer" is false. -/
theorem C9_overflow_counterexample :
    utf8Decode [8] = some [8] ∧
    (encWrites [8] 0 1).1 = [(0, '\\'), (1, 'b'), (2, Char.ofNat 0)] ∧
    encode_json_string [8] 1 = none ∧
    ¬(∀ q ∈ (encWrites [8] 0 1).1, q.1 < 1) := by
  refine ⟨by decide, by decide, by decide, by decide⟩

/-- C9 (amended): `encode_json_string` fails when the multibyte decode fails;
the loop succeeds exactly when the fully escaped text plus its terminating 0
fits in the buffer; on success every store lands strictly inside the buffer, the
terminating 0 is stored right after the escaped text, and the returned C string
is the buffer read-back (the full concatenation of the escapes when every code
point is below 0x10000); on failure nothing is returned (`-1`, and
`write_json_report` aborts before emitting the entry), but a trailing escape may
store up to 6 bytes past the end of the buffer before the error is detected —
every store stays below `dst_size + 6`, not `dst_size`. -/
theorem C9_encode_safety (src : List Nat) (n : Nat) :
    (utf8Decode src = none → encode_json_string src n = none) ∧
    (∀ ws : List Nat, utf8Decode src = some ws →
      (∀ q ∈ (encWrites ws 0 n).1, q.1 < n + 6) ∧
      ((encWrites ws 0 n).2 = true ↔ encTotalAdv ws < n) ∧
      ((encWrites ws 0 n).2 = true →
        (∀ q ∈ (encWrites ws 0 n).1, q.1 < n) ∧
        (encTotalAdv ws, Char.ofNat 0) ∈ (encWrites ws 0 n).1 ∧
        encode_json_string src n = some (encChunks ws) ∧
        ((∀ c ∈ ws, c < 65536) → encChunks ws = (ws.map escFull).flatten)) ∧
      ((encWrites ws 0 n).2 = false → encode_json_string src n = none)) := by
  constructor
  · intro h
    simp [encode_json_string, h]
  · intro ws hws
    refine ⟨encWrites_offset_lt_add6 ws 0 n, ?_, ?_, ?_⟩
    · rw [encWrites_ok_iff ws 0 n]
      omega
    · intro hok
      refine ⟨encWrites_offset_lt_of_ok ws 0 n hok, ?_, ?_, fun hbmp => encChunks_eq_flatten hbmp⟩
      · have h := encWrites_nul_mem ws 0 n hok
        rw [Nat.zero_add] at h
        exact h
      · simp [encode_json_string, hws, hok]
    · intro hfail
      simp [encode_json_string, hws, hfail]

/-- C9 witness: the success facts at the one-letter input `"a"` with a 5-byte
buffer. -/
theorem C9_encode_safety_witness :
    (∀ q ∈ (encWrites [97] 0 5).1, q.1 < 5) ∧
    (encTotalAdv [97], Char.ofNat 0) ∈ (encWrites [97] 0 5).1 ∧
    encode_json_string [97] 5 = some (encChunks [97]) ∧
    ((∀ c ∈ [97], c < 65536) → encChunks [97] = ([97].map escFull).flatten) :=
  (((C9_encode_safety [97] 5).2 [97] rfl).2.2.1) (by decide)

end Ear
